import Mathlib

/-!
Verification of the kidney-matching engine (`kidney_match_v0.01.py`).

The program stores the donor/patient compatibility scores in an `n × n`
integer matrix.  Two solvers are offered: a multi-way assignment solve
(scipy's `linear_sum_assignment` on the "inverted" cost matrix built by
`read_csv`) and a strictly pairwise solve (`pairwise_match`, which builds
an exchange graph and runs networkx's `max_weight_matching` with
`maxcardinality=True`).  The event loop then assembles a result table and
a total score from the returned `row_ind` / `col_ind` index lists.

Matrices are embedded as `List (List Int)` (row-major, as read by
`read_csv`); out-of-range reads default to `0` and never occur on the
in-range indices the program uses.  Edge weights, which Python computes
with float division by 2, are embedded as exact rationals.
-/

namespace KidneyMatch

/-- Entry `m[i][j]` of a row-major integer matrix, defaulting to 0. -/
def entry (m : List (List Int)) (i j : Nat) : Int :=
  (m.getD i []).getD j 0

/-- The running maximum computed by `read_csv`: `max_score` starts at 0 and
is bumped whenever a larger entry is read (rows scanned top to bottom,
left to right). -/
def maxScore (m : List (List Int)) : Int :=
  m.flatten.foldl (fun acc x => if acc < x then x else acc) 0

/-- The value of `read_csv`'s `max_score` variable just after row `i` has
been read: the running maximum over rows `0..i` only. -/
def prefixMax (m : List (List Int)) (i : Nat) : Int :=
  maxScore (m.take (i + 1))

/-- The `inverted` matrix built by `read_csv` for the Hungarian method:
row `i` is filled with `max_score - matrix[i][j]` where `max_score` is the
running maximum at the time row `i` is processed (rows `0..i`). -/
def inverted (m : List (List Int)) : List (List Int) :=
  (List.range m.length).map fun i =>
    (List.range m.length).map fun j => prefixMax m i - entry m i j

/-- Total of `c[i][col[i]]` over `i = 0..n-1`, the objective both solvers
are scored by (`n` is the row count of `c`). -/
def assignTotal (c : List (List Int)) (col : List Nat) : Int :=
  ((List.range c.length).map fun i => entry c i (col.getD i 0)).sum

/-- First element of `l` minimizing `f`, with `b` as the running best. -/
def argminBy {α : Type} (f : α → Int) : List α → α → α
  | [], b => b
  | x :: xs, b => argminBy f xs (if f x < f b then x else b)

/-- Modelled from the spec: scipy's `linear_sum_assignment` is not part of
this repository; per the spec (§4.2) it returns a permutation `col_ind` of
`{0,…,n−1}` exactly minimizing `Σ cost[i][col_ind[i]]`.  We model it as an
exhaustive search over all permutations of `[0,…,n−1]`. -/
def linear_sum_assignment (c : List (List Int)) : List Nat :=
  argminBy (assignTotal c) (List.range c.length).permutations (List.range c.length)

/-- The weight `pairwise_match` attaches to the exchange edge `(i,j)`:
the plain average when `regular` is set, and otherwise the modified
average `avg * (max_score - |score[i][j] - score[j][i]|)`.  Python's float
division by 2 is embedded as exact rational division. -/
def edgeWeight (m : List (List Int)) (max_score : Int) (regular : Bool) (i j : Nat) : ℚ :=
  let average : ℚ := ((entry m i j : ℚ) + (entry m j i : ℚ)) / 2
  if regular then average
  else average * ((max_score : ℚ) - |(entry m i j : ℚ) - (entry m j i : ℚ)|)

/-- The weighted edge list of the exchange graph built by
`pairwise_match`: for `0 ≤ i < j < n`, the edge `(i,j)` is skipped when
`zero_out` is set and one direction scores 0, and otherwise added with
weight `edgeWeight`. -/
def graphEdges (m : List (List Int)) (max_score : Int) (regular zero_out : Bool) :
    List (Nat × Nat × ℚ) :=
  (List.range m.length).flatMap fun i =>
    ((List.range m.length).filter fun j => i < j).filterMap fun j =>
      if zero_out ∧ (entry m i j = 0 ∨ entry m j i = 0) then none
      else some (i, j, edgeWeight m max_score regular i j)

/-- All endpoints of an edge list, in order. -/
def matchNodes (es : List (Nat × Nat × ℚ)) : List Nat :=
  es.flatMap fun e => [e.1, e.2.1]

/-- An edge list is a matching when no endpoint repeats. -/
def isMatching (es : List (Nat × Nat × ℚ)) : Bool :=
  decide (matchNodes es).Nodup

/-- Total weight of an edge list. -/
def weightSum (es : List (Nat × Nat × ℚ)) : ℚ :=
  (es.map fun e => e.2.2).sum

/-- Comparison used by the modelled matcher: cardinality first, total
weight second (the `maxcardinality=True` preference order of the spec). -/
def betterMatching (s t : List (Nat × Nat × ℚ)) : Bool :=
  decide (t.length < s.length ∨ (s.length = t.length ∧ weightSum t < weightSum s))

/-- First element of `l` maximal for `better`, with `b` as running best. -/
def selectBest {α : Type} (better : α → α → Bool) : List α → α → α
  | [], b => b
  | x :: xs, b => selectBest better xs (if better x b then x else b)

/-- Modelled from the spec: networkx's `max_weight_matching` with
`maxcardinality=True` is not part of this repository; per the spec (§4.4)
it returns a matching of maximum total weight among the matchings of
maximum cardinality.  We model it as exhaustive search over all sublists
of the edge list that are matchings, cardinality primary, weight
secondary. -/
def max_weight_matching (es : List (Nat × Nat × ℚ)) : List (Nat × Nat × ℚ) :=
  selectBest betterMatching (es.sublists.filter isMatching) []

/-- One iteration of `pairwise_match`'s assembly loop:
`col_ind[pair[0]] = pair[1]; col_ind[pair[1]] = pair[0]`. -/
def coverStep (col : List Int) (e : Nat × Nat × ℚ) : List Int :=
  (col.set e.1 (e.2.1 : Int)).set e.2.1 (e.1 : Int)

/-- The `col_ind` array assembled by `pairwise_match`: `-1` everywhere,
then each matched pair writes its two partner entries. -/
def buildColInd (n : Nat) (M : List (Nat × Nat × ℚ)) : List Int :=
  M.foldl coverStep (List.replicate n (-1))

/-- Embedding of `pairwise_match`: builds the exchange graph, runs the
maximum-weight matcher, and returns `row_ind = [0,…,n−1]` together with
the partner array `col_ind` (`-1` marking unmatched pairs). -/
def pairwise_match (m : List (List Int)) (max_score : Int) (regular zero_out : Bool) :
    List Nat × List Int :=
  let M := max_weight_matching (graphEdges m max_score regular zero_out)
  (List.range m.length, buildColInd m.length M)

/-- Embedding of the event loop's results assembly (and `print_mapping`'s
row format): one pass over `row_ind`, emitting `donor,patient,score`
triples and accumulating `total_match_score` for matched rows only. -/
def assembleResults (matrix : List (List Int)) (donor patient : List String)
    (row_ind : List Nat) (col_ind : List Int) : List (String × String × Int) × Int :=
  (List.range row_ind.length).foldl
    (fun acc i =>
      if col_ind.getD i 0 = -1 then
        (acc.1 ++ [(donor.getD (row_ind.getD i 0) "", "NONE", 0)], acc.2)
      else
        (acc.1 ++ [(donor.getD (row_ind.getD i 0) "",
            patient.getD (col_ind.getD i 0).toNat "",
            entry matrix (row_ind.getD i 0) (col_ind.getD i 0).toNat)],
          acc.2 + entry matrix (row_ind.getD i 0) (col_ind.getD i 0).toNat))
    ([], 0)

/-- The triple the assembly loop emits for index `i`. -/
def resultRow (matrix : List (List Int)) (donor patient : List String)
    (row_ind : List Nat) (col_ind : List Int) (i : Nat) : String × String × Int :=
  if col_ind.getD i 0 = -1 then (donor.getD (row_ind.getD i 0) "", "NONE", 0)
  else (donor.getD (row_ind.getD i 0) "", patient.getD (col_ind.getD i 0).toNat "",
    entry matrix (row_ind.getD i 0) (col_ind.getD i 0).toNat)

/-- The score the assembly loop adds for index `i`. -/
def resultAdd (matrix : List (List Int)) (row_ind : List Nat) (col_ind : List Int)
    (i : Nat) : Int :=
  if col_ind.getD i 0 = -1 then 0
  else entry matrix (row_ind.getD i 0) (col_ind.getD i 0).toNat

/-- The explicit matching `{(0,1), (2,3), …, (2k−2, 2k−1)}`, with the
weights the exchange graph gives those edges; used to witness that a
maximum-cardinality matching of the complete exchange graph covers all
but one node when `n` is odd. -/
def oddGreedy (m : List (List Int)) (max_score : Int) (regular : Bool) (k : Nat) :
    List (Nat × Nat × ℚ) :=
  (List.range k).map fun t => (2*t, 2*t+1, edgeWeight m max_score regular (2*t) (2*t+1))

theorem argminBy_mem {α : Type} (f : α → Int) :
    ∀ (l : List α) (b : α), argminBy f l b = b ∨ argminBy f l b ∈ l := by
  intro l
  induction l with
  | nil => intro b; exact Or.inl rfl
  | cons x xs ih =>
    intro b
    by_cases h : f x < f b
    · rw [argminBy, if_pos h]
      rcases ih x with h' | h'
      · right; rw [h']; exact List.mem_cons_self x xs
      · right; exact List.mem_cons_of_mem x h'
    · rw [argminBy, if_neg h]
      rcases ih b with h' | h'
      · exact Or.inl h'
      · exact Or.inr (List.mem_cons_of_mem x h')

theorem argminBy_le_init {α : Type} (f : α → Int) :
    ∀ (l : List α) (b : α), f (argminBy f l b) ≤ f b := by
  intro l
  induction l with
  | nil => intro b; simp [argminBy]
  | cons x xs ih =>
    intro b
    by_cases h : f x < f b
    · calc f (argminBy f (x :: xs) b) = f (argminBy f xs x) := by simp [argminBy, h]
        _ ≤ f x := ih x
        _ ≤ f b := le_of_lt h
    · calc f (argminBy f (x :: xs) b) = f (argminBy f xs b) := by simp [argminBy, h]
        _ ≤ f b := ih b

theorem argminBy_le {α : Type} (f : α → Int) :
    ∀ (l : List α) (b : α) (x : α), x ∈ l → f (argminBy f l b) ≤ f x := by
  intro l
  induction l with
  | nil => intro b x hx; cases hx
  | cons y ys ih =>
    intro b x hx
    rcases List.mem_cons.mp hx with rfl | hx
    · by_cases h : f x < f b
      · calc f (argminBy f (x :: ys) b) = f (argminBy f ys x) := by simp [argminBy, h]
          _ ≤ f x := argminBy_le_init f ys x
      · calc f (argminBy f (x :: ys) b) = f (argminBy f ys b) := by simp [argminBy, h]
          _ ≤ f b := argminBy_le_init f ys b
          _ ≤ f x := le_of_not_lt h
    · by_cases h : f y < f b
      · simpa [argminBy, h] using ih y x hx
      · simpa [argminBy, h] using ih b x hx

/-- The modelled assignment solver always returns a permutation of
`[0,…,n−1]`. -/
theorem linear_sum_assignment_perm (c : List (List Int)) :
    (linear_sum_assignment c).Perm (List.range c.length) := by
  rcases argminBy_mem (assignTotal c) (List.range c.length).permutations
      (List.range c.length) with h | h
  · rw [linear_sum_assignment, h]
  · exact List.mem_permutations.mp h

/-- The modelled assignment solver minimizes the total cost over all
permutations of `[0,…,n−1]`. -/
theorem linear_sum_assignment_min (c : List (List Int)) (p : List Nat)
    (hp : p.Perm (List.range c.length)) :
    assignTotal c (linear_sum_assignment c) ≤ assignTotal c p :=
  argminBy_le (assignTotal c) _ _ p (List.mem_permutations.mpr hp)

theorem inverted_length (m : List (List Int)) : (inverted m).length = m.length := by
  simp [inverted]

theorem entry_inverted (m : List (List Int)) {i j : Nat}
    (hi : i < m.length) (hj : j < m.length) :
    entry (inverted m) i j = prefixMax m i - entry m i j := by
  simp [entry, inverted, List.getD_eq_getElem?_getD, List.getElem?_map,
    List.getElem?_range, hi, hj]

theorem sum_map_sub (f g : Nat → Int) :
    ∀ l : List Nat, (l.map fun i => f i - g i).sum = (l.map f).sum - (l.map g).sum := by
  intro l
  induction l with
  | nil => simp
  | cons x xs ih => simp [ih]; ring

theorem getD_lt_of_perm_range {p : List Nat} {n : Nat}
    (hp : p.Perm (List.range n)) {i : Nat} (hi : i < n) : p.getD i 0 < n := by
  have hlen : p.length = n := by simpa using hp.length_eq
  have hi' : i < p.length := by omega
  have hmem : p.getD i 0 ∈ p := by
    rw [List.getD_eq_getElem?_getD, List.getElem?_eq_getElem hi']
    exact List.getElem_mem hi'
  exact List.mem_range.mp (hp.mem_iff.mp hmem)

/-- On a permutation of `[0,…,n−1]`, the cost of the `inverted` matrix is
a constant (the sum of the per-row running maxima) minus the score. -/
theorem assignTotal_inverted (m : List (List Int)) (p : List Nat)
    (hp : p.Perm (List.range m.length)) :
    assignTotal (inverted m) p =
      ((List.range m.length).map fun i => prefixMax m i).sum - assignTotal m p := by
  unfold assignTotal
  rw [inverted_length]
  rw [show ((List.range m.length).map fun i => entry (inverted m) i (p.getD i 0)) =
      (List.range m.length).map fun i => prefixMax m i - entry m i (p.getD i 0) from
    List.map_congr_left fun i hi =>
      entry_inverted m (List.mem_range.mp hi) (getD_lt_of_perm_range hp (List.mem_range.mp hi))]
  exact sum_map_sub _ _ _

/-- C1: the assignment solve maximizes the total score: for every
permutation `p` of `{0,…,n−1}`, the score of the returned `col_ind` is at
least the score of `p` (minimizing the inverted cost matrix maximizes the
score, because each inverted row differs from the negated score row by a
row-constant). -/
theorem assignment_total_score_optimal (m : List (List Int)) (p : List Nat)
    (hsq : ∀ row ∈ m, row.length = m.length)
    (hnn : ∀ row ∈ m, ∀ x ∈ row, 0 ≤ x)
    (hp : p.Perm (List.range m.length)) :
    assignTotal m p ≤ assignTotal m (linear_sum_assignment (inverted m)) := by
  have hperm : (linear_sum_assignment (inverted m)).Perm (List.range m.length) := by
    have h := linear_sum_assignment_perm (inverted m)
    rwa [inverted_length] at h
  have hmin := linear_sum_assignment_min (inverted m) p
    (by rwa [inverted_length])
  rw [assignTotal_inverted m p hp, assignTotal_inverted m _ hperm] at hmin
  omega

theorem assignment_total_score_optimal_witness :
    (∀ row ∈ ([[6,7,8],[8,6,7],[7,8,6]] : List (List Int)),
        row.length = ([[6,7,8],[8,6,7],[7,8,6]] : List (List Int)).length) ∧
    (∀ row ∈ ([[6,7,8],[8,6,7],[7,8,6]] : List (List Int)), ∀ x ∈ row, 0 ≤ x) ∧
    ([0,1,2] : List Nat).Perm (List.range ([[6,7,8],[8,6,7],[7,8,6]] : List (List Int)).length) ∧
    assignTotal [[6,7,8],[8,6,7],[7,8,6]] [0,1,2] ≤
      assignTotal [[6,7,8],[8,6,7],[7,8,6]]
        (linear_sum_assignment (inverted [[6,7,8],[8,6,7],[7,8,6]])) :=
  ⟨by decide, by decide, by decide,
    assignment_total_score_optimal [[6,7,8],[8,6,7],[7,8,6]] [0,1,2]
      (by decide) (by decide) (by decide)⟩

/-- The relation `read_csv` actually establishes: score plus inverted cost
equals the running maximum over rows `0..i`, not the global maximum. -/
theorem roundtrip_prefixMax (m : List (List Int)) {i j : Nat}
    (hi : i < m.length) (hj : j < m.length) :
    entry m i j + entry (inverted m) i j = prefixMax m i := by
  rw [entry_inverted m hi hj]; ring

/-- C2: evaluation at the failing input `[[1,0],[0,5]]`: `read_csv` builds
the cost for row 0 from the running maximum 1 (rows seen so far), so
`score[0][0] + cost[0][0] = 1`, not the whole-matrix maximum 5. -/
theorem cost_roundtrip_failure :
    maxScore [[1,0],[0,5]] = 5 ∧
    inverted [[1,0],[0,5]] = [[0,1],[5,0]] ∧
    entry [[1,0],[0,5]] 0 0 + entry (inverted [[1,0],[0,5]]) 0 0 = 1 ∧
    entry [[1,0],[0,5]] 0 0 + entry (inverted [[1,0],[0,5]]) 0 0 ≠ maxScore [[1,0],[0,5]] := by
  refine ⟨by decide, by decide, by decide, by decide⟩

/-- C3: the assignment solver's `col_ind` is a bijection on `{0,…,n−1}`:
it has length `n`, no duplicates, and contains every column index. -/
theorem assignment_col_ind_bijection (c : List (List Int))
    (hsq : ∀ row ∈ c, row.length = c.length) :
    (linear_sum_assignment c).length = c.length ∧
    (linear_sum_assignment c).Nodup ∧
    ∀ j, j < c.length → j ∈ linear_sum_assignment c := by
  have hp := linear_sum_assignment_perm c
  refine ⟨by simpa using hp.length_eq, ?_, ?_⟩
  · exact hp.nodup_iff.mpr (List.nodup_range c.length)
  · intro j hj
    exact hp.mem_iff.mpr (List.mem_range.mpr hj)

theorem assignment_col_ind_bijection_witness :
    (∀ row ∈ ([[1,2],[3,4]] : List (List Int)),
        row.length = ([[1,2],[3,4]] : List (List Int)).length) ∧
    ((linear_sum_assignment [[1,2],[3,4]]).length = ([[1,2],[3,4]] : List (List Int)).length ∧
      (linear_sum_assignment [[1,2],[3,4]]).Nodup ∧
      ∀ j, j < ([[1,2],[3,4]] : List (List Int)).length → j ∈ linear_sum_assignment [[1,2],[3,4]]) :=
  ⟨by decide, assignment_col_ind_bijection [[1,2],[3,4]] (by decide)⟩


theorem mem_graphEdges {m : List (List Int)} {max_score : Int} {regular zero_out : Bool}
    {e : Nat × Nat × ℚ} (he : e ∈ graphEdges m max_score regular zero_out) :
    e.1 < e.2.1 ∧ e.2.1 < m.length ∧
    ¬(zero_out ∧ (entry m e.1 e.2.1 = 0 ∨ entry m e.2.1 e.1 = 0)) ∧
    e.2.2 = edgeWeight m max_score regular e.1 e.2.1 := by
  unfold graphEdges at he
  rcases List.mem_flatMap.mp he with ⟨i, hi, hin⟩
  rcases List.mem_filterMap.mp hin with ⟨j, hj, hsome⟩
  have hjr := List.mem_filter.mp hj
  have hij : i < j := by simpa using hjr.2
  have hjn : j < m.length := List.mem_range.mp hjr.1
  by_cases hz : zero_out ∧ (entry m i j = 0 ∨ entry m j i = 0)
  · rw [if_pos hz] at hsome; cases hsome
  · rw [if_neg hz] at hsome
    have he' : e = (i, j, edgeWeight m max_score regular i j) := by
      injection hsome with h; exact h.symm
    subst he'
    exact ⟨hij, hjn, hz, rfl⟩

/-- C4: with `zero_out` set, no edge joins a pair `(i,j)` one of whose
directions scores 0: any edge of the graph avoids `{i,j}` in either
orientation. -/
theorem zero_out_drops_edges (m : List (List Int)) (max_score : Int) (regular : Bool)
    (i j : Nat) (e : Nat × Nat × ℚ)
    (hij : i ≠ j)
    (hz : entry m i j = 0 ∨ entry m j i = 0)
    (he : e ∈ graphEdges m max_score regular true) :
    ¬((e.1 = i ∧ e.2.1 = j) ∨ (e.1 = j ∧ e.2.1 = i)) := by
  have hprop := (mem_graphEdges he).2.2.1
  rintro (⟨h1, h2⟩ | ⟨h1, h2⟩)
  · exact hprop ⟨rfl, by rw [h1, h2]; exact hz⟩
  · exact hprop ⟨rfl, by rw [h1, h2]; exact hz.symm⟩

theorem graphEdges_example :
    graphEdges [[0,5,0],[5,0,2],[0,3,0]] 5 true true = [(0, 1, 5), (1, 2, (5 : ℚ)/2)] := by
  norm_num [graphEdges, edgeWeight, entry, List.range_succ, List.filterMap_cons,
    List.filterMap_nil, List.flatMap_cons, List.flatMap_nil, List.filter_cons, List.filter_nil]

theorem zero_out_drops_edges_witness :
    ((0 : Nat) ≠ 2) ∧
    (entry [[0,5,0],[5,0,2],[0,3,0]] 0 2 = 0 ∨ entry [[0,5,0],[5,0,2],[0,3,0]] 2 0 = 0) ∧
    ((0, 1, (5 : ℚ)) ∈ graphEdges [[0,5,0],[5,0,2],[0,3,0]] 5 true true) ∧
    ¬((((0, 1, (5 : ℚ)).1 = 0 ∧ (0, 1, (5 : ℚ)).2.1 = 2)) ∨
      (((0, 1, (5 : ℚ)).1 = 2 ∧ (0, 1, (5 : ℚ)).2.1 = 0))) :=
  ⟨by decide, by decide, by rw [graphEdges_example]; simp,
    zero_out_drops_edges [[0,5,0],[5,0,2],[0,3,0]] 5 true 0 2 (0, 1, (5 : ℚ))
      (by decide) (by decide) (by rw [graphEdges_example]; simp)⟩

/-- C5: with the modified average selected (`regular = false`), every edge
of the graph carries exactly the weight
`((score[i][j]+score[j][i])/2) * (max_score - |score[i][j]-score[j][i]|)`,
with no clamping. -/
theorem modified_average_weight_exact (m : List (List Int)) (max_score : Int)
    (zero_out : Bool) (i j : Nat) (w : ℚ)
    (he : (i, j, w) ∈ graphEdges m max_score false zero_out) :
    w = ((entry m i j : ℚ) + (entry m j i : ℚ)) / 2 *
        ((max_score : ℚ) - |(entry m i j : ℚ) - (entry m j i : ℚ)|) := by
  have hw := (mem_graphEdges he).2.2.2
  simpa [edgeWeight] using hw

theorem graphEdges_modified_example :
    graphEdges [[0,3],[1,0]] 3 false false = [(0, 1, 2)] := by
  norm_num [graphEdges, edgeWeight, entry, List.range_succ, List.filterMap_cons,
    List.filterMap_nil, List.flatMap_cons, List.flatMap_nil, List.filter_cons, List.filter_nil]

theorem modified_average_weight_exact_witness :
    ((0, 1, (2 : ℚ)) ∈ graphEdges [[0,3],[1,0]] 3 false false) ∧
    (2 : ℚ) = ((entry [[0,3],[1,0]] 0 1 : ℚ) + (entry [[0,3],[1,0]] 1 0 : ℚ)) / 2 *
        (((3 : Int) : ℚ) - |(entry [[0,3],[1,0]] 0 1 : ℚ) - (entry [[0,3],[1,0]] 1 0 : ℚ)|) :=
  ⟨by rw [graphEdges_modified_example]; simp,
    modified_average_weight_exact [[0,3],[1,0]] 3 false 0 1 2
      (by rw [graphEdges_modified_example]; simp)⟩

theorem selectBest_mem {α : Type} (better : α → α → Bool) :
    ∀ (l : List α) (b : α), selectBest better l b = b ∨ selectBest better l b ∈ l := by
  intro l
  induction l with
  | nil => intro b; exact Or.inl rfl
  | cons x xs ih =>
    intro b
    by_cases h : better x b
    · rw [selectBest, if_pos h]
      rcases ih x with h' | h'
      · right; rw [h']; exact List.mem_cons_self x xs
      · right; exact List.mem_cons_of_mem x h'
    · rw [selectBest, if_neg h]
      rcases ih b with h' | h'
      · exact Or.inl h'
      · exact Or.inr (List.mem_cons_of_mem x h')

theorem betterMatching_irrefl (s : List (Nat × Nat × ℚ)) : betterMatching s s = false := by
  simp [betterMatching]

theorem betterMatching_trans_neg {x b y : List (Nat × Nat × ℚ)}
    (h1 : betterMatching x b = false) (h2 : betterMatching y b = true) :
    betterMatching x y = false := by
  simp only [betterMatching, decide_eq_false_iff_not, decide_eq_true_eq] at h1 h2 ⊢
  push_neg at h1 ⊢
  obtain ⟨h1a, h1b⟩ := h1
  rcases h2 with h2 | ⟨h2a, h2b⟩
  · exact ⟨by omega, fun h => absurd h (by omega)⟩
  · refine ⟨by omega, fun h => ?_⟩
    have := h1b (by omega)
    linarith

theorem selectBest_preserves :
    ∀ (l : List (List (Nat × Nat × ℚ))) (b x : List (Nat × Nat × ℚ)),
      betterMatching x b = false →
      betterMatching x (selectBest betterMatching l b) = false := by
  intro l
  induction l with
  | nil => intro b x h; exact h
  | cons y t ih =>
    intro b x h
    by_cases hy : betterMatching y b
    · rw [selectBest, if_pos hy]
      exact ih y x (betterMatching_trans_neg h hy)
    · rw [selectBest, if_neg hy]
      exact ih b x h

theorem selectBest_max :
    ∀ (l : List (List (Nat × Nat × ℚ))) (b x : List (Nat × Nat × ℚ)),
      x ∈ l → betterMatching x (selectBest betterMatching l b) = false := by
  intro l
  induction l with
  | nil => intro b x hx; cases hx
  | cons y t ih =>
    intro b x hx
    rcases List.mem_cons.mp hx with rfl | hx
    · by_cases hy : betterMatching x b
      · rw [selectBest, if_pos hy]
        exact selectBest_preserves t x x (betterMatching_irrefl x)
      · rw [selectBest, if_neg hy]
        exact selectBest_preserves t b x (Bool.eq_false_iff.mpr hy)
    · by_cases hy : betterMatching y b
      · rw [selectBest, if_pos hy]; exact ih y x hx
      · rw [selectBest, if_neg hy]; exact ih b x hx

/-- The modelled matcher returns a sublist of the edge list that is a
matching. -/
theorem max_weight_matching_spec (es : List (Nat × Nat × ℚ)) :
    List.Sublist (max_weight_matching es) es ∧ isMatching (max_weight_matching es) = true := by
  rcases selectBest_mem betterMatching (es.sublists.filter isMatching) [] with h | h
  · rw [max_weight_matching, h]
    exact ⟨List.nil_sublist es, by decide⟩
  · have h' := List.mem_filter.mp h
    exact ⟨List.mem_sublists.mp h'.1, h'.2⟩

/-- The modelled matcher has maximum cardinality among all matchings that
use only edges of the graph. -/
theorem max_weight_matching_maximal (es cand : List (Nat × Nat × ℚ))
    (hsub : List.Sublist cand es) (hm : isMatching cand = true) :
    cand.length ≤ (max_weight_matching es).length := by
  have hmem : cand ∈ es.sublists.filter isMatching :=
    List.mem_filter.mpr ⟨List.mem_sublists.mpr hsub, hm⟩
  have h := selectBest_max (es.sublists.filter isMatching) [] cand hmem
  rw [show selectBest betterMatching (es.sublists.filter isMatching) [] =
      max_weight_matching es from rfl] at h
  simp only [betterMatching, decide_eq_false_iff_not] at h
  push_neg at h
  exact h.1

theorem matcher_nodup (es : List (Nat × Nat × ℚ)) :
    (matchNodes (max_weight_matching es)).Nodup := by
  have h := (max_weight_matching_spec es).2
  rwa [isMatching, decide_eq_true_eq] at h

/-- C6: the matching returned by the maximum-weight matcher on any
exchange graph is valid: no node index appears in two pairs (the full
endpoint list has no duplicates). -/
theorem matcher_valid_matching (m : List (List Int)) (max_score : Int)
    (regular zero_out : Bool) :
    (matchNodes (max_weight_matching (graphEdges m max_score regular zero_out))).Nodup :=
  matcher_nodup (graphEdges m max_score regular zero_out)

theorem matchNodes_cons (e : Nat × Nat × ℚ) (M : List (Nat × Nat × ℚ)) :
    matchNodes (e :: M) = e.1 :: e.2.1 :: matchNodes M := rfl

theorem foldl_coverStep_length :
    ∀ (M : List (Nat × Nat × ℚ)) (c : List Int), (M.foldl coverStep c).length = c.length := by
  intro M
  induction M with
  | nil => intro c; rfl
  | cons e M ih => intro c; rw [List.foldl_cons, ih]; simp [coverStep]

theorem foldl_coverStep_notmem :
    ∀ (M : List (Nat × Nat × ℚ)) (c : List Int) (i : Nat), i ∉ matchNodes M →
      (M.foldl coverStep c).getD i 0 = c.getD i 0 := by
  intro M
  induction M with
  | nil => intro c i _; rfl
  | cons e M ih =>
    intro c i hi
    rw [matchNodes_cons] at hi
    simp only [List.mem_cons, not_or] at hi
    rw [List.foldl_cons, ih _ i hi.2.2]
    simp only [coverStep, List.getD_eq_getElem?_getD]
    rw [List.getElem?_set_ne (fun h => hi.2.1 h.symm),
      List.getElem?_set_ne (fun h => hi.1 h.symm)]

theorem foldl_coverStep_fst :
    ∀ (M : List (Nat × Nat × ℚ)) (c : List Int) (e : Nat × Nat × ℚ), e ∈ M →
      (matchNodes M).Nodup → (∀ x ∈ matchNodes M, x < c.length) →
      (M.foldl coverStep c).getD e.1 0 = (e.2.1 : Int) := by
  intro M
  induction M with
  | nil => intro c e he; cases he
  | cons f M ih =>
    intro c e he hnd hlt
    rw [matchNodes_cons] at hnd hlt
    have hne : f.1 ≠ f.2.1 := by
      intro h; exact (List.nodup_cons.mp hnd).1 (h ▸ List.mem_cons_self _ _)
    have hndM : (matchNodes M).Nodup :=
      ((List.nodup_cons.mp (List.nodup_cons.mp hnd).2).2)
    rcases List.mem_cons.mp he with rfl | he'
    · rw [List.foldl_cons,
        foldl_coverStep_notmem M _ e.1 fun h =>
          (List.nodup_cons.mp hnd).1 (List.mem_cons_of_mem _ h)]
      simp only [coverStep, List.getD_eq_getElem?_getD]
      rw [List.getElem?_set_ne fun h => hne h.symm,
        List.getElem?_set_self (hlt e.1 (List.mem_cons_self _ _))]
      rfl
    · rw [List.foldl_cons]
      refine ih _ e he' hndM ?_
      intro x hx
      rw [show (coverStep c f).length = c.length by simp [coverStep]]
      exact hlt x (List.mem_cons_of_mem _ (List.mem_cons_of_mem _ hx))

theorem foldl_coverStep_snd :
    ∀ (M : List (Nat × Nat × ℚ)) (c : List Int) (e : Nat × Nat × ℚ), e ∈ M →
      (matchNodes M).Nodup → (∀ x ∈ matchNodes M, x < c.length) →
      (M.foldl coverStep c).getD e.2.1 0 = (e.1 : Int) := by
  intro M
  induction M with
  | nil => intro c e he; cases he
  | cons f M ih =>
    intro c e he hnd hlt
    rw [matchNodes_cons] at hnd hlt
    have hndM : (matchNodes M).Nodup :=
      ((List.nodup_cons.mp (List.nodup_cons.mp hnd).2).2)
    rcases List.mem_cons.mp he with rfl | he'
    · rw [List.foldl_cons,
        foldl_coverStep_notmem M _ e.2.1 fun h =>
          (List.nodup_cons.mp (List.nodup_cons.mp hnd).2).1 h]
      simp only [coverStep, List.getD_eq_getElem?_getD]
      rw [List.getElem?_set_self]
      · rfl
      · rw [List.length_set]
        exact hlt e.2.1 (List.mem_cons_of_mem _ (List.mem_cons_self _ _))
    · rw [List.foldl_cons]
      refine ih _ e he' hndM ?_
      intro x hx
      rw [show (coverStep c f).length = c.length by simp [coverStep]]
      exact hlt x (List.mem_cons_of_mem _ (List.mem_cons_of_mem _ hx))

theorem mem_matchNodes {es : List (Nat × Nat × ℚ)} {x : Nat} :
    x ∈ matchNodes es ↔ ∃ e ∈ es, x = e.1 ∨ x = e.2.1 := by
  simp [matchNodes]

theorem matcher_nodes_lt (m : List (List Int)) (max_score : Int) (regular zero_out : Bool) :
    ∀ x ∈ matchNodes (max_weight_matching (graphEdges m max_score regular zero_out)),
      x < m.length := by
  intro x hx
  rcases mem_matchNodes.mp hx with ⟨e, he, hor⟩
  have he' := (max_weight_matching_spec _).1.subset he
  have hb := mem_graphEdges he'
  rcases hor with rfl | rfl
  · omega
  · omega

theorem getD_replicate_neg {n i : Nat} (hi : i < n) :
    (List.replicate n (-1 : Int)).getD i 0 = -1 := by
  rw [List.getD_eq_getElem?_getD, List.getElem?_replicate_of_lt hi]
  rfl

/-- C10: `pairwise_match` returns `row_ind = [0,…,n−1]`, and its
`col_ind` is symmetric on matched entries: every in-range entry is either
the sentinel `-1`, or a partner index `j` with `col_ind[j] = i` and
`j ≠ i`. -/
theorem pairwise_match_shape (m : List (List Int)) (max_score : Int)
    (regular zero_out : Bool) :
    (pairwise_match m max_score regular zero_out).1 = List.range m.length ∧
    ∀ i, i < m.length →
      (pairwise_match m max_score regular zero_out).2.getD i 0 = -1 ∨
      ∃ j, j < m.length ∧ j ≠ i ∧
        (pairwise_match m max_score regular zero_out).2.getD i 0 = (j : Int) ∧
        (pairwise_match m max_score regular zero_out).2.getD j 0 = (i : Int) := by
  refine ⟨rfl, ?_⟩
  intro i hi
  have hnd := matcher_nodup (graphEdges m max_score regular zero_out)
  have hlt : ∀ x ∈ matchNodes (max_weight_matching (graphEdges m max_score regular zero_out)),
      x < (List.replicate m.length (-1 : Int)).length := by
    simpa using matcher_nodes_lt m max_score regular zero_out
  by_cases hmem : i ∈ matchNodes (max_weight_matching (graphEdges m max_score regular zero_out))
  · right
    rcases mem_matchNodes.mp hmem with ⟨e, he, hor⟩
    have hb := mem_graphEdges ((max_weight_matching_spec _).1.subset he)
    rcases hor with rfl | rfl
    · exact ⟨e.2.1, by omega, by omega,
        foldl_coverStep_fst _ _ e he hnd hlt,
        foldl_coverStep_snd _ _ e he hnd hlt⟩
    · exact ⟨e.1, by omega, by omega,
        foldl_coverStep_snd _ _ e he hnd hlt,
        foldl_coverStep_fst _ _ e he hnd hlt⟩
  · left
    show (buildColInd m.length _).getD i 0 = -1
    rw [buildColInd, foldl_coverStep_notmem _ _ i hmem, getD_replicate_neg hi]

theorem pairwise_match_shape_witness :
    (pairwise_match [[0,5],[5,0]] 5 true false).1 = List.range 2 ∧
    ((pairwise_match [[0,5],[5,0]] 5 true false).2.getD 0 0 = -1 ∨
      ∃ j : Nat, j < 2 ∧ j ≠ 0 ∧
        (pairwise_match [[0,5],[5,0]] 5 true false).2.getD 0 0 = (j : Int) ∧
        (pairwise_match [[0,5],[5,0]] 5 true false).2.getD j 0 = ((0 : Nat) : Int)) :=
  ⟨(pairwise_match_shape [[0,5],[5,0]] 5 true false).1,
    (pairwise_match_shape [[0,5],[5,0]] 5 true false).2 0 (by decide)⟩


theorem foldl_ext {α β : Type} (f g : α → β → α) (h : ∀ a b, f a b = g a b) :
    ∀ (l : List β) (a : α), l.foldl f a = l.foldl g a := by
  intro l
  induction l with
  | nil => intro a; rfl
  | cons x xs ih => intro a; rw [List.foldl_cons, List.foldl_cons, h, ih]

theorem foldl_emit {β : Type} (emit : Nat → β) (add : Nat → Int) :
    ∀ (l : List Nat) (acc : List β × Int),
      l.foldl (fun a i => (a.1 ++ [emit i], a.2 + add i)) acc =
        (acc.1 ++ l.map emit, acc.2 + (l.map add).sum) := by
  intro l
  induction l with
  | nil => intro acc; simp
  | cons x xs ih =>
    intro acc
    rw [List.foldl_cons, ih]
    simp [add_assoc]

theorem assembleResults_eq (matrix : List (List Int)) (donor patient : List String)
    (row_ind : List Nat) (col_ind : List Int) :
    assembleResults matrix donor patient row_ind col_ind =
      ((List.range row_ind.length).map (resultRow matrix donor patient row_ind col_ind),
        ((List.range row_ind.length).map (resultAdd matrix row_ind col_ind)).sum) := by
  rw [assembleResults,
    foldl_ext _ (fun a i => (a.1 ++ [resultRow matrix donor patient row_ind col_ind i],
      a.2 + resultAdd matrix row_ind col_ind i)) ?_, foldl_emit]
  · simp
  · intro a i
    simp only [resultRow, resultAdd]
    by_cases h : col_ind.getD i 0 = -1
    · rw [if_pos h, if_pos h, if_pos h]
      simp
    · rw [if_neg h, if_neg h, if_neg h]

theorem getD_map_range {β : Type} (f : Nat → β) {n i : Nat} (hi : i < n) (d : β) :
    ((List.range n).map f).getD i d = f i := by
  rw [List.getD_eq_getElem?_getD, List.getElem?_map, List.getElem?_range hi]
  rfl

theorem getD_range {n i : Nat} (hi : i < n) : (List.range n).getD i 0 = i := by
  rw [List.getD_eq_getElem?_getD, List.getElem?_range hi]
  rfl

/-- C8: with `row_ind = [0,…,n−1]` and a `col_ind` of size `n`, the
assembler emits for index `i` the triple
`(donor[i], NONE, 0)` when `col_ind[i]` is the sentinel `-1` and
`(donor[i], patient[col_ind[i]], matrix[i][col_ind[i]])` otherwise, and
the reported total equals the sum of the emitted scores (unmatched rows
contribute 0). -/
theorem result_assembler_rows (matrix : List (List Int)) (donor patient : List String)
    (col_ind : List Int) :
    (∀ i, i < col_ind.length →
      (assembleResults matrix donor patient (List.range col_ind.length) col_ind).1.getD
          i ("", "", 0) =
        if col_ind.getD i 0 = -1 then (donor.getD i "", "NONE", 0)
        else (donor.getD i "", patient.getD (col_ind.getD i 0).toNat "",
          entry matrix i (col_ind.getD i 0).toNat)) ∧
    (assembleResults matrix donor patient (List.range col_ind.length) col_ind).2 =
      ((assembleResults matrix donor patient (List.range col_ind.length) col_ind).1.map
        fun t => t.2.2).sum := by
  constructor
  · intro i hi
    rw [assembleResults_eq]
    have hi' : i < (List.range col_ind.length).length := by simpa using hi
    rw [getD_map_range _ hi']
    rw [resultRow, getD_range hi]
  · rw [assembleResults_eq]
    rw [List.map_map]
    refine congrArg List.sum (List.map_congr_left fun i _ => ?_)
    simp only [Function.comp_apply, resultRow, resultAdd]
    by_cases h : col_ind.getD i 0 = -1
    · rw [if_pos h, if_pos h]
    · rw [if_neg h, if_neg h]

theorem result_assembler_rows_witness :
    (assembleResults [[1,2],[3,4]] ["a","b"] ["x","y"]
        (List.range ([-1,0] : List Int).length) [-1,0]).1.getD 1 ("", "", 0) =
      ("b", "x", 3) := by
  have h := (result_assembler_rows [[1,2],[3,4]] ["a","b"] ["x","y"] [-1,0]).1 1 (by decide)
  rw [h]
  rfl

/-- C9: on the empty input (`n = 0`) both solves are no-ops: the pairwise
solve returns empty `row_ind`/`col_ind`, the assignment solve returns an
empty permutation, and assembling the empty result reports total score
0. -/
theorem empty_input_no_op (max_score : Int) (regular zero_out : Bool)
    (donor patient : List String) :
    pairwise_match [] max_score regular zero_out = ([], []) ∧
    linear_sum_assignment (inverted []) = [] ∧
    assembleResults [] donor patient [] [] = ([], 0) := by
  refine ⟨?_, ?_, rfl⟩
  · have h : max_weight_matching (graphEdges [] max_score regular zero_out) = [] :=
      List.sublist_nil.mp (max_weight_matching_spec _).1
    simp [pairwise_match, buildColInd, h]
  · have h := linear_sum_assignment_perm (inverted [])
    simpa using h.eq_nil

theorem matchNodes_length :
    ∀ es : List (Nat × Nat × ℚ), (matchNodes es).length = 2 * es.length := by
  intro es
  induction es with
  | nil => rfl
  | cons e es ih => rw [matchNodes_cons]; simp [ih]; omega

theorem length_le_of_nodup_lt (s : List Nat) (n : Nat)
    (hnd : s.Nodup) (hlt : ∀ x ∈ s, x < n) : s.length ≤ n := by
  have hsub : s.toFinset ⊆ Finset.range n := by
    intro x hx
    rw [Finset.mem_range]
    exact hlt x (List.mem_toFinset.mp hx)
  have h := Finset.card_le_card hsub
  rwa [List.toFinset_card_of_nodup hnd, Finset.card_range] at h

theorem filter_mem_length (s : List Nat) (n : Nat)
    (hnd : s.Nodup) (hlt : ∀ x ∈ s, x < n) :
    ((List.range n).filter fun i => decide (i ∈ s)).length = s.length := by
  have h1 : ((List.range n).filter fun i => decide (i ∈ s)).Nodup :=
    (List.nodup_range n).filter _
  have hperm : ((List.range n).filter fun i => decide (i ∈ s)).Perm s := by
    rw [List.perm_ext_iff_of_nodup h1 hnd]
    intro a
    simp only [List.mem_filter, List.mem_range, decide_eq_true_eq]
    exact ⟨fun h => h.2, fun h => ⟨hlt a h, h⟩⟩
  exact hperm.length_eq

theorem length_filter_not {α : Type} (p : α → Bool) :
    ∀ l : List α, (l.filter fun a => !(p a)).length + (l.filter p).length = l.length := by
  intro l
  induction l with
  | nil => rfl
  | cons x xs ih =>
    by_cases h : p x
    · rw [List.filter_cons_of_neg (by simp [h]), List.filter_cons_of_pos h]
      simp only [List.length_cons]
      omega
    · rw [List.filter_cons_of_pos (by simp [h]), List.filter_cons_of_neg (by simpa using h)]
      simp only [List.length_cons]
      omega


theorem matchNodes_oddGreedy (m : List (List Int)) (max_score : Int) (regular : Bool) :
    ∀ k : Nat, matchNodes (oddGreedy m max_score regular k) = List.range (2*k) := by
  intro k
  induction k with
  | zero => rfl
  | succ k ih =>
    have h1 : oddGreedy m max_score regular (k+1) =
        oddGreedy m max_score regular k ++
          [(2*k, 2*k+1, edgeWeight m max_score regular (2*k) (2*k+1))] := by
      rw [oddGreedy, List.range_succ, List.map_append, List.map_singleton]
      rfl
    have h2 : matchNodes (oddGreedy m max_score regular k ++
        [(2*k, 2*k+1, edgeWeight m max_score regular (2*k) (2*k+1))]) =
        matchNodes (oddGreedy m max_score regular k) ++ [2*k, 2*k+1] := by
      rw [matchNodes, matchNodes, List.flatMap_append]
      rfl
    rw [h1, h2, ih, show 2*(k+1) = (2*k+1)+1 by ring, List.range_succ, List.range_succ]
    simp

theorem length_oddGreedy (m : List (List Int)) (max_score : Int) (regular : Bool) (k : Nat) :
    (oddGreedy m max_score regular k).length = k := by
  simp [oddGreedy]

theorem isMatching_oddGreedy (m : List (List Int)) (max_score : Int) (regular : Bool)
    (k : Nat) : isMatching (oddGreedy m max_score regular k) = true := by
  rw [isMatching, matchNodes_oddGreedy, decide_eq_true_eq]
  exact List.nodup_range _

theorem map_sublist_flatMap {β : Type} (g : Nat → β) (f : Nat → List β) :
    ∀ {ks outer : List Nat}, List.Sublist ks outer → (∀ k ∈ ks, g k ∈ f k) →
      List.Sublist (ks.map g) (outer.flatMap f) := by
  intro ks outer h
  induction h with
  | slnil => intro _; simp
  | cons a h ih =>
    intro hg
    rw [List.flatMap_cons]
    exact (ih hg).trans (List.sublist_append_right _ _)
  | cons₂ a h ih =>
    intro hg
    rw [List.flatMap_cons, List.map_cons,
      show g a :: (List.map g _) = [g a] ++ List.map g _ from rfl]
    exact List.Sublist.append
      (List.singleton_sublist.mpr (hg a (List.mem_cons_self _ _)))
      (ih fun k hk => hg k (List.mem_cons_of_mem a hk))

theorem sorted_sublist_range' :
    ∀ (l : List Nat) (s len : Nat), List.Pairwise (· < ·) l →
      (∀ x ∈ l, s ≤ x ∧ x < s + len) → List.Sublist l (List.range' s len) := by
  intro l
  induction l with
  | nil => intro s len _ _; exact List.nil_sublist _
  | cons x t ih =>
    intro s len hp hb
    obtain ⟨hsx, hxlen⟩ := hb x (List.mem_cons_self _ _)
    have hxs : x - s < len := by omega
    have hsplit1 : List.range' s len =
        List.range' s (x - s) ++ List.range' (s + (x - s)) (len - (x - s)) := by
      rw [List.range'_append_1]
      congr 1
      omega
    have hsplit2 : List.range' (s + (x - s)) (len - (x - s)) =
        x :: List.range' (x + 1) (len - (x - s) - 1) := by
      rw [show s + (x - s) = x by omega, show len - (x - s) = (len - (x - s) - 1) + 1 by omega,
        List.range'_succ, Nat.add_sub_cancel]
    rw [hsplit1, hsplit2]
    have hrec : List.Sublist t (List.range' (x + 1) (len - (x - s) - 1)) := by
      refine ih (x + 1) (len - (x - s) - 1) (List.pairwise_cons.mp hp).2 ?_
      intro y hy
      have hxy : x < y := (List.pairwise_cons.mp hp).1 y hy
      have hylen : y < s + len := (hb y (List.mem_cons_of_mem x hy)).2
      omega
    have h0 : List.Sublist ([] ++ (x :: t))
        (List.range' s (x - s) ++ (x :: List.range' (x + 1) (len - (x - s) - 1))) :=
      List.Sublist.append (List.nil_sublist _) (List.Sublist.cons₂ x hrec)
    rwa [List.nil_append] at h0

theorem sorted_sublist_range (l : List Nat) (n : Nat)
    (hp : List.Pairwise (· < ·) l) (hb : ∀ x ∈ l, x < n) :
    List.Sublist l (List.range n) := by
  rw [List.range_eq_range']
  exact sorted_sublist_range' l 0 n hp fun x hx => ⟨Nat.zero_le x, by simpa using hb x hx⟩

theorem oddGreedy_sublist (m : List (List Int)) (max_score : Int) (regular : Bool)
    (k : Nat) (hk : 2 * k ≤ m.length) :
    List.Sublist (oddGreedy m max_score regular k)
      (graphEdges m max_score regular false) := by
  rw [graphEdges]
  have hcomp : oddGreedy m max_score regular k =
      ((List.range k).map fun t => 2*t).map
        (fun i => (i, i+1, edgeWeight m max_score regular i (i+1))) := by
    rw [List.map_map]
    rfl
  rw [hcomp]
  refine map_sublist_flatMap _ _ ?_ ?_
  · refine sorted_sublist_range _ _ ?_ ?_
    · exact (List.pairwise_map).mpr ((List.pairwise_lt_range k).imp fun h => by omega)
    · intro x hx
      rcases List.mem_map.mp hx with ⟨t, ht, rfl⟩
      have := List.mem_range.mp ht
      omega
  · intro i hi
    rcases List.mem_map.mp hi with ⟨t, ht, rfl⟩
    have ht' := List.mem_range.mp ht
    refine List.mem_filterMap.mpr ⟨2*t+1, List.mem_filter.mpr ⟨List.mem_range.mpr (by omega), by simp⟩, ?_⟩
    rw [if_neg (by simp)]

/-- C7 (amended): when the exchange graph is complete (`zero_out = false`)
and `n` is odd, the pairwise matching leaves exactly one index unmatched:
exactly one entry of `col_ind` is the sentinel `-1`. -/
theorem pairwise_odd_one_unmatched (m : List (List Int)) (max_score : Int)
    (regular : Bool) (hodd : Odd m.length) :
    ((List.range m.length).filter fun i =>
      (pairwise_match m max_score regular false).2.getD i 0 = -1).length = 1 := by
  obtain ⟨t, ht⟩ := hodd
  have hnd := matcher_nodup (graphEdges m max_score regular false)
  have hlt := matcher_nodes_lt m max_score regular false
  have hub : 2 * (max_weight_matching (graphEdges m max_score regular false)).length ≤
      m.length := by
    rw [← matchNodes_length]
    exact length_le_of_nodup_lt _ _ hnd hlt
  have hlb : t ≤ (max_weight_matching (graphEdges m max_score regular false)).length := by
    have h := max_weight_matching_maximal (graphEdges m max_score regular false)
      (oddGreedy m max_score regular t)
      (oddGreedy_sublist m max_score regular t (by omega))
      (isMatching_oddGreedy m max_score regular t)
    rwa [length_oddGreedy] at h
  have hcard : (matchNodes (max_weight_matching (graphEdges m max_score regular false))).length
      = m.length - 1 := by
    rw [matchNodes_length]
    omega
  have hchar : ∀ i ∈ List.range m.length,
      (decide ((pairwise_match m max_score regular false).2.getD i 0 = -1)) =
        !(decide (i ∈ matchNodes (max_weight_matching (graphEdges m max_score regular false)))) := by
    intro i hi
    have hin : i < m.length := List.mem_range.mp hi
    rw [← decide_not]
    refine decide_eq_decide.mpr ?_
    by_cases hmem : i ∈ matchNodes (max_weight_matching (graphEdges m max_score regular false))
    · rcases mem_matchNodes.mp hmem with ⟨e, he, hor⟩
      have hltr : ∀ x ∈ matchNodes (max_weight_matching (graphEdges m max_score regular false)),
          x < (List.replicate m.length (-1 : Int)).length := by simpa using hlt
      constructor
      · intro hsent
        exfalso
        rcases hor with rfl | rfl
        · have h := foldl_coverStep_fst _ _ e he hnd hltr
          rw [show (pairwise_match m max_score regular false).2 =
            (max_weight_matching (graphEdges m max_score regular false)).foldl coverStep
              (List.replicate m.length (-1 : Int)) from rfl] at hsent
          rw [h] at hsent
          omega
        · have h := foldl_coverStep_snd _ _ e he hnd hltr
          rw [show (pairwise_match m max_score regular false).2 =
            (max_weight_matching (graphEdges m max_score regular false)).foldl coverStep
              (List.replicate m.length (-1 : Int)) from rfl] at hsent
          rw [h] at hsent
          omega
      · intro h; exact absurd hmem h
    · constructor
      · intro _; exact hmem
      · intro _
        show (buildColInd m.length _).getD i 0 = -1
        rw [buildColInd, foldl_coverStep_notmem _ _ i hmem, getD_replicate_neg hin]
  rw [List.filter_congr hchar]
  have h1 := length_filter_not
    (fun i => decide (i ∈ matchNodes (max_weight_matching (graphEdges m max_score regular false))))
    (List.range m.length)
  have h2 := filter_mem_length
    (matchNodes (max_weight_matching (graphEdges m max_score regular false)))
    m.length hnd hlt
  simp only [List.length_range] at h1
  omega

theorem pairwise_odd_one_unmatched_witness :
    Odd ([[6,7,8],[8,6,7],[7,8,6]] : List (List Int)).length ∧
    ((List.range ([[6,7,8],[8,6,7],[7,8,6]] : List (List Int)).length).filter fun i =>
      (pairwise_match [[6,7,8],[8,6,7],[7,8,6]] 8 true false).2.getD i 0 = -1).length = 1 :=
  ⟨by decide, pairwise_odd_one_unmatched [[6,7,8],[8,6,7],[7,8,6]] 8 true (by decide)⟩

/-- C7 (counterexample to the claim as stated): the all-zero 3x3 matrix
with `zero_out = true` yields an exchange graph with no edges, so all
three indices are unmatched, not exactly one, although `n = 3` is odd. -/
theorem pairwise_odd_counterexample :
    Odd ([[0,0,0],[0,0,0],[0,0,0]] : List (List Int)).length ∧
    ¬(((List.range 3).filter fun i =>
      (pairwise_match [[0,0,0],[0,0,0],[0,0,0]] 0 true true).2.getD i 0 = -1).length = 1) ∧
    ((List.range 3).filter fun i =>
      (pairwise_match [[0,0,0],[0,0,0],[0,0,0]] 0 true true).2.getD i 0 = -1).length = 3 := by
  refine ⟨by decide, by decide, by decide⟩

end KidneyMatch
